import Mathlib

/-!
Shallow embedding of the Logo-Liquify backend (`backend.py`, class `IconHandler`)
and verification of its specification claims.

Strings from the Python code are modelled as `List Char`; directories are
modelled as association lists from file names to abstract content identifiers;
plist dictionaries as association lists from keys to plist values.
-/

namespace LogoLiquify

/-- File names and other Python strings are modelled as lists of characters. -/
abbrev FName := List Char

/-- Lookup in an association list (first matching key wins, like a dict). -/
def assocGet : List (FName × α) → FName → Option α
  | [], _ => none
  | (k, v) :: t, n => if k = n then some v else assocGet t n

/-- Remove every entry with the given key. -/
def assocErase : List (FName × α) → FName → List (FName × α)
  | [], _ => []
  | (k, v) :: t, n => if k = n then assocErase t n else (k, v) :: assocErase t n

/-- Insert or replace an entry (used to model a filesystem write or move
that overwrites any same-named target). -/
def dirInsert (d : List (FName × α)) (n : FName) (v : α) : List (FName × α) :=
  (n, v) :: assocErase d n

/-- Update a key in place, preserving its position, appending when new.
This models assignment into a Python dict, which keeps insertion order. -/
def setKey : List (FName × α) → FName → α → List (FName × α)
  | [], k, v => [(k, v)]
  | (k0, v0) :: t, k, v => if k0 = k then (k, v) :: t else (k0, v0) :: setKey t k v

/-- A directory: file names mapped to abstract content identifiers. -/
abbrev Dir := List (FName × Nat)

/-- Model of `os.rename(old, new)` on a directory: if `old` exists its entry
is moved to `new`, replacing any existing `new`; otherwise nothing happens
(in the code the source always exists when the call is made). -/
def renameFile (d : Dir) (old new : FName) : Dir :=
  match assocGet d old with
  | none => d
  | some v => dirInsert (assocErase d old) new v

/-- Python `str.split(sep)` for a one-character separator: splits at every
occurrence and keeps empty pieces, so the result is never the empty list. -/
def pySplitChar (sep : Char) : List Char → List (List Char)
  | [] => [[]]
  | c :: cs =>
    let r := pySplitChar sep cs
    if c = sep then [] :: r else (c :: r.headD []) :: r.tail

/-- The derived icon identifier, translating
`iconPath.split("/")[-1].split(".")[0]` from `IconHandler.compileIcon`. -/
def iconNameOf (p : FName) : FName :=
  ((pySplitChar '/' p).getLastD []) |> (fun base => (pySplitChar '.' base).headD [])

/-- Modelled from the spec wording only, for comparison with `iconNameOf`:
the substring of the base filename (everything after the last path
separator) before the first dot. -/
def specIconName (p : FName) : FName :=
  ((p.reverse.takeWhile (fun c => c ≠ '/')).reverse).takeWhile (fun c => c ≠ '.')

/-- Model of `os.path.splitext` on a bare file name: the extension starts at
the last dot, unless every character before that dot is itself a dot (or the
dot is the leading character), in which case there is no extension. -/
def splitExt (s : FName) : FName × FName :=
  let extRev := s.reverse.takeWhile (fun c => c ≠ '.')
  if extRev.length = s.length then (s, [])
  else
    let root := s.take (s.length - extRev.length - 1)
    if root.any (fun c => c ≠ '.') then (root, '.' :: extRev.reverse)
    else (s, [])

/-- The extension of a file name, as `os.path.splitext` computes it. -/
def extOf (s : FName) : FName := (splitExt s).2

/-- The asset-catalog archive extension `.car`. -/
def carExt : FName := ['.', 'c', 'a', 'r']

/-- The canonical name `AppIcon<ext>` a produced file is renamed to. -/
def appIcon (ext : FName) : FName :=
  ['A', 'p', 'p', 'I', 'c', 'o', 'n'] ++ ext

/-- One iteration of the renaming loop at the end of `compileIcon`: a file
whose extension is not `.car` is renamed to `AppIcon<ext>`. -/
def renameStep (d : Dir) (f : FName) : Dir :=
  if extOf f ≠ carExt then renameFile d f (appIcon (extOf f)) else d

/-- The renaming loop of `compileIcon`: iterates `renameStep` over the listing
of `./OutputDir` taken before the loop starts. -/
def renameLoop : Dir → List FName → Dir
  | d, [] => d
  | d, f :: fs => renameLoop (renameStep d f) fs

/-- Whether `pat` occurs at the start of `l`. -/
def isPref : List Char → List Char → Bool
  | [], _ => true
  | _ :: _, [] => false
  | a :: as, b :: bs => a = b && isPref as bs

/-- Python substring containment `pat in l`. -/
def containsSub (pat : List Char) : List Char → Bool
  | [] => isPref pat []
  | c :: rest => isPref pat (c :: rest) || containsSub pat rest

/-- The backup subdirectory name used by `moveIconToApp`. -/
def oldFilesName : FName := ['o', 'l', 'd', 'F', 'i', 'l', 'e', 's']

/-- The resource directory of a bundle: its top-level entries (other than the
backup subdirectory) and the backup subdirectory when it exists. -/
structure ResDir where
  entries : Dir
  oldFiles : Option Dir
  deriving Repr, DecidableEq

/-- Model of `IconHandler.moveIconToApp`: list the resource directory, create
`oldFiles` tolerating prior existence, move every listed entry whose name does
not contain the substring `oldFiles` into the backup, then move every file of
the scratch output directory into the resource directory, overwriting
same-named entries. -/
def moveIconToApp (res : ResDir) (out : Dir) : ResDir :=
  let ofd := res.oldFiles.getD []
  let moved := res.entries.filter (fun e => ! containsSub oldFilesName e.1)
  let kept := res.entries.filter (fun e => containsSub oldFilesName e.1)
  let newOld := moved.foldl (fun acc e => dirInsert acc e.1 e.2) ofd
  let newEntries := out.foldl (fun acc e => dirInsert acc e.1 e.2) kept
  { entries := newEntries, oldFiles := some newOld }

/-- A plist value: a string or some other (abstract) value. -/
inductive PVal where
  | str (s : FName)
  | other (tag : Nat)
  deriving Repr, DecidableEq

/-- A parsed property list: keys mapped to values, in file order. -/
abbrev Plist := List (FName × PVal)

/-- The key `CFBundleIconName`. -/
def cfBundleIconName : FName :=
  ['C', 'F', 'B', 'u', 'n', 'd', 'l', 'e', 'I', 'c', 'o', 'n', 'N', 'a', 'm', 'e']

/-- The key `CFBundleIconFile`. -/
def cfBundleIconFile : FName :=
  ['C', 'F', 'B', 'u', 'n', 'd', 'l', 'e', 'I', 'c', 'o', 'n', 'F', 'i', 'l', 'e']

/-- Model of the dictionary edit of `IconHandler.updateInfoPlist` on a
successfully parsed plist: set the icon-name key, and set the fallback
icon-file key only when the fallback argument is a non-empty string. -/
def updateInfoPlist (iconName fallbackIconFile : FName) (pl : Plist) : Plist :=
  let pl1 := setKey pl cfBundleIconName (PVal.str iconName)
  if fallbackIconFile ≠ [] then setKey pl1 cfBundleIconFile (PVal.str fallbackIconFile)
  else pl1

/-- Which stages of `IconHandler.__init__` execute in a run, and whether the
metadata file is written. -/
structure StageTrace where
  ranActool : Bool
  enteredUpdatePlist : Bool
  readPlist : Bool
  wrotePlist : Bool
  ranMoveIcon : Bool
  ranResign : Bool
  deriving Repr, DecidableEq

/-- Model of the pipeline run by `IconHandler.__init__`, parameterised by
whether `validatePath(iconBundlePath)` succeeds and whether `plistlib.load`
can parse `Info.plist`.  `compileIcon` returns early on a failed validation
without setting `self.iconName` and without raising, so `__init__` continues;
`updateInfoPlist` then opens and parses the plist; a parse failure raises,
and reading `self.iconName` when it was never set raises, and either
uncaught exception aborts `__init__` before the write and before the later
stages. -/
def initPipeline (iconPathValid plistParsable : Bool) : StageTrace :=
  if plistParsable = false then
    { ranActool := iconPathValid, enteredUpdatePlist := true, readPlist := true,
      wrotePlist := false, ranMoveIcon := false, ranResign := false }
  else if iconPathValid = false then
    { ranActool := false, enteredUpdatePlist := true, readPlist := true,
      wrotePlist := false, ranMoveIcon := false, ranResign := false }
  else
    { ranActool := true, enteredUpdatePlist := true, readPlist := true,
      wrotePlist := true, ranMoveIcon := true, ranResign := true }

/-- The environment `resignAppForLocalUse` observes. -/
structure SignEnv where
  bundlePathValid : Bool
  codesignFound : Bool
  xattrFound : Bool
  codeSigExists : Bool
  signExitOk : Bool
  deriving Repr, DecidableEq

/-- The side effects `resignAppForLocalUse` performs. -/
structure SignEffects where
  deletedCodeSig : Bool
  ranXattr : Bool
  ranCodesign : Bool
  deriving Repr, DecidableEq

/-- No side effect performed. -/
def noSignEffects : SignEffects :=
  { deletedCodeSig := false, ranXattr := false, ranCodesign := false }

/-- Model of `IconHandler.resignAppForLocalUse`: validate the bundle path,
stop if `codesign` is not discoverable, otherwise delete an existing
`Contents/_CodeSignature`, run `xattr -cr` when available, and run
`codesign`; the return value reflects the signing exit status. -/
def resignAppForLocalUse (env : SignEnv) : Bool × SignEffects :=
  if env.bundlePathValid = false then (false, noSignEffects)
  else if env.codesignFound = false then (false, noSignEffects)
  else
    (env.signExitOk,
     { deletedCodeSig := env.codeSigExists, ranXattr := env.xattrFound,
       ranCodesign := true })

/-- The outcome of `Path(filePath).resolve(strict=False)`: success, or one of
the caught exceptions (`OSError`, `RuntimeError`, `ValueError`) carrying a
message. -/
inductive ResolveOutcome where
  | ok
  | err (msg : FName)
  deriving Repr, DecidableEq

/-- Model of `IconHandler.validatePath`: returns the boolean result together
with the list of status messages emitted; a caught resolution error logs one
message and returns false, success returns true and logs nothing. -/
def validatePath (filePath : FName) (outcome : ResolveOutcome) :
    Bool × List FName :=
  match outcome with
  | ResolveOutcome.ok => (true, [])
  | ResolveOutcome.err _ =>
    (false,
     [['E', 'r', 'r', 'o', 'r', ' ', 'f', 'i', 'n', 'd', 'i', 'n', 'g', ' ',
       't', 'h', 'e', ' ', 'p', 'a', 't', 'h', ' '] ++ filePath])

/-! ### Association-list lemmas -/

/-- Left-biased choice on options. -/
def optOr (a b : Option α) : Option α :=
  match a with
  | some v => some v
  | none => b

theorem assocGet_erase (d : List (FName × α)) (n k : FName) :
    assocGet (assocErase d n) k = if n = k then none else assocGet d k := by
  induction d with
  | nil => simp [assocErase, assocGet]
  | cons e t ih =>
    obtain ⟨k0, v0⟩ := e
    by_cases h0 : k0 = n
    · subst h0
      by_cases hk : k0 = k
      · subst hk
        simp [assocErase, ih]
      · have he : assocErase ((k0, v0) :: t) k0 = assocErase t k0 := by
          simp [assocErase]
        rw [he, ih]
        simp [assocGet, hk]
    · by_cases hk : k0 = k
      · subst hk
        have : ¬ n = k0 := fun h => h0 h.symm
        simp [assocErase, assocGet, h0, this]
      · simp [assocErase, assocGet, h0, hk, ih]

theorem assocGet_dirInsert (d : List (FName × α)) (n : FName) (v : α) (k : FName) :
    assocGet (dirInsert d n v) k = if n = k then some v else assocGet d k := by
  by_cases h : n = k
  · subst h
    simp [dirInsert, assocGet]
  · simp [dirInsert, assocGet, h, assocGet_erase]

theorem assocGet_some_mem {d : List (FName × α)} {n : FName} {v : α}
    (h : assocGet d n = some v) : (n, v) ∈ d := by
  induction d with
  | nil => simp [assocGet] at h
  | cons e t ih =>
    obtain ⟨k0, v0⟩ := e
    by_cases h0 : k0 = n
    · subst h0
      simp [assocGet] at h
      simp [h]
    · simp [assocGet, h0] at h
      exact List.mem_cons_of_mem _ (ih h)

theorem mem_assocGet_of_nodup {d : List (FName × α)} {n : FName} {v : α}
    (hd : (d.map Prod.fst).Nodup) (h : (n, v) ∈ d) : assocGet d n = some v := by
  induction d with
  | nil => simp at h
  | cons e t ih =>
    obtain ⟨k0, v0⟩ := e
    simp only [List.map_cons, List.nodup_cons] at hd
    rcases List.mem_cons.mp h with h1 | h1
    · simp only [Prod.mk.injEq] at h1
      obtain ⟨hk, hv⟩ := h1
      subst hk
      subst hv
      simp [assocGet]
    · have hne : k0 ≠ n := by
        intro he
        subst he
        exact hd.1 (List.mem_map.mpr ⟨(k0, v), h1, rfl⟩)
      simp [assocGet, hne, ih hd.2 h1]

theorem assocGet_setKey_self (pl : List (FName × α)) (k : FName) (v : α) :
    assocGet (setKey pl k v) k = some v := by
  induction pl with
  | nil => simp [setKey, assocGet]
  | cons e t ih =>
    obtain ⟨k0, v0⟩ := e
    by_cases h0 : k0 = k
    · simp [setKey, h0, assocGet]
    · simp [setKey, h0, assocGet, ih]

theorem assocGet_setKey_other (pl : List (FName × α)) (k0 k : FName) (v : α)
    (h : k0 ≠ k) : assocGet (setKey pl k0 v) k = assocGet pl k := by
  induction pl with
  | nil => simp [setKey, assocGet, h]
  | cons e t ih =>
    obtain ⟨k1, v1⟩ := e
    by_cases h1 : k1 = k0
    · subst h1
      simp [setKey, assocGet, h]
    · simp [setKey, h1, assocGet, ih]

theorem foldl_dirInsert_get (l : List (FName × α)) (acc : List (FName × α))
    (k : FName) (hn : (l.map Prod.fst).Nodup) :
    assocGet (l.foldl (fun a e => dirInsert a e.1 e.2) acc) k =
      optOr (assocGet l k) (assocGet acc k) := by
  induction l generalizing acc with
  | nil => simp [assocGet, optOr]
  | cons e t ih =>
    obtain ⟨k0, v0⟩ := e
    simp only [List.map_cons, List.nodup_cons] at hn
    simp only [List.foldl_cons]
    rw [ih _ hn.2]
    by_cases h0 : k0 = k
    · subst h0
      have ht : assocGet t k0 = none := by
        cases hv : assocGet t k0 with
        | none => rfl
        | some v =>
          exact absurd (List.mem_map.mpr ⟨(k0, v), assocGet_some_mem hv, rfl⟩) hn.1
      simp [assocGet, ht, optOr, assocGet_dirInsert]
    · simp [assocGet, h0, assocGet_dirInsert, assocGet_erase]

theorem foldl_dirInsert_get_of_ne (l : List (FName × α)) (acc : List (FName × α))
    (k : FName) (h : ∀ e ∈ l, e.1 ≠ k) :
    assocGet (l.foldl (fun a e => dirInsert a e.1 e.2) acc) k = assocGet acc k := by
  induction l generalizing acc with
  | nil => rfl
  | cons e t ih =>
    simp only [List.foldl_cons]
    rw [ih _ (fun x hx => h x (List.mem_cons_of_mem _ hx))]
    simp [assocGet_dirInsert, h e (List.mem_cons_self _ _)]

/-! ### Lemmas about Python string splitting -/

theorem takeWhile_eq_self_of_not_mem {sep : Char} {l : List Char} (h : sep ∉ l) :
    l.takeWhile (fun c => c ≠ sep) = l := by
  induction l with
  | nil => rfl
  | cons c cs ih =>
    simp only [List.mem_cons, not_or] at h
    have hc : (fun x => decide (x ≠ sep)) c = true := by
      simp only [decide_eq_true_eq]
      exact fun he => h.1 he.symm
    rw [@List.takeWhile_cons_of_pos Char (fun x => decide (x ≠ sep)) c cs hc, ih h.2]

theorem takeWhile_append_of_mem {sep : Char} {l : List Char} (t : List Char)
    (h : sep ∈ l) :
    (l ++ t).takeWhile (fun c => c ≠ sep) = l.takeWhile (fun c => c ≠ sep) := by
  induction l with
  | nil => simp at h
  | cons c cs ih =>
    by_cases hc : c = sep
    · have hn : ¬ ((fun x => decide (x ≠ sep)) c = true) := by
        simp only [decide_eq_true_eq, not_not]
        exact hc
      rw [List.cons_append,
        @List.takeWhile_cons_of_neg Char (fun x => decide (x ≠ sep)) c (cs ++ t) hn,
        @List.takeWhile_cons_of_neg Char (fun x => decide (x ≠ sep)) c cs hn]
    · have hm : sep ∈ cs := by
        rcases List.mem_cons.mp h with h1 | h1
        · exact absurd h1.symm hc
        · exact h1
      have hp : (fun x => decide (x ≠ sep)) c = true := by
        simp only [decide_eq_true_eq]
        exact hc
      rw [List.cons_append,
        @List.takeWhile_cons_of_pos Char (fun x => decide (x ≠ sep)) c (cs ++ t) hp,
        @List.takeWhile_cons_of_pos Char (fun x => decide (x ≠ sep)) c cs hp, ih hm]

theorem takeWhile_append_of_not_mem {sep : Char} {l : List Char} (t : List Char)
    (h : sep ∉ l) :
    (l ++ t).takeWhile (fun c => c ≠ sep) = l ++ t.takeWhile (fun c => c ≠ sep) := by
  induction l with
  | nil => simp
  | cons c cs ih =>
    simp only [List.mem_cons, not_or] at h
    have hc : (fun x => decide (x ≠ sep)) c = true := by
      simp only [decide_eq_true_eq]
      exact fun he => h.1 he.symm
    rw [List.cons_append,
      @List.takeWhile_cons_of_pos Char (fun x => decide (x ≠ sep)) c (cs ++ t) hc,
      ih h.2, List.cons_append]

theorem pySplitChar_ne_nil (sep : Char) (l : List Char) : pySplitChar sep l ≠ [] := by
  cases l with
  | nil => simp [pySplitChar]
  | cons c cs =>
    by_cases hc : c = sep <;> simp [pySplitChar, hc]

theorem pySplitChar_of_not_mem {sep : Char} {l : List Char} (h : sep ∉ l) :
    pySplitChar sep l = [l] := by
  induction l with
  | nil => rfl
  | cons c cs ih =>
    simp only [List.mem_cons, not_or] at h
    have hc : ¬ c = sep := fun he => h.1 he.symm
    simp [pySplitChar, ih h.2, hc]

theorem pySplitChar_two_le {sep : Char} {l : List Char} (h : sep ∈ l) :
    2 ≤ (pySplitChar sep l).length := by
  induction l with
  | nil => simp at h
  | cons c cs ih =>
    by_cases hc : c = sep
    · have hlen : 0 < (pySplitChar sep cs).length :=
        List.length_pos.mpr (pySplitChar_ne_nil sep cs)
      simp [pySplitChar, hc]
      omega
    · have hm : sep ∈ cs := by
        rcases List.mem_cons.mp h with h1 | h1
        · exact absurd h1.symm hc
        · exact h1
      have h2 := ih hm
      simp [pySplitChar, hc, List.length_tail]
      omega

theorem headD_pySplitChar (sep : Char) (l : List Char) :
    (pySplitChar sep l).headD [] = l.takeWhile (fun c => c ≠ sep) := by
  induction l with
  | nil => rfl
  | cons c cs ih =>
    by_cases hc : c = sep
    · simp [pySplitChar, hc, List.takeWhile_cons]
    · have hp : (fun x => decide (x ≠ sep)) c = true := by
        simp only [decide_eq_true_eq]
        exact hc
      simp only [pySplitChar, if_neg hc, List.headD_cons]
      rw [@List.takeWhile_cons_of_pos Char (fun x => decide (x ≠ sep)) c cs hp, ← ih]

theorem getLast?_pySplitChar (sep : Char) (l : List Char) :
    (pySplitChar sep l).getLast? =
      some ((l.reverse.takeWhile (fun c => c ≠ sep)).reverse) := by
  induction l with
  | nil => rfl
  | cons c cs ih =>
    have hrc : (c :: cs).reverse = cs.reverse ++ [c] := List.reverse_cons c cs
    by_cases hm : sep ∈ cs
    · have hmr : sep ∈ cs.reverse := List.mem_reverse.mpr hm
      obtain ⟨w, ws, hr⟩ : ∃ w ws, pySplitChar sep cs = w :: ws := by
        cases hq : pySplitChar sep cs with
        | nil => exact absurd hq (pySplitChar_ne_nil sep cs)
        | cons w ws => exact ⟨w, ws, rfl⟩
      rw [hr] at ih
      simp only [pySplitChar, hr]
      rw [hrc, takeWhile_append_of_mem [c] hmr]
      by_cases hc : c = sep
      · rw [if_pos hc, List.getLast?_cons_cons]
        exact ih
      · rw [if_neg hc]
        have hlen : 2 ≤ (pySplitChar sep cs).length := pySplitChar_two_le hm
        rw [hr] at hlen
        simp only [List.length_cons] at hlen
        cases ws with
        | nil => simp at hlen
        | cons x xs =>
          simp only [List.headD_cons, List.tail_cons]
          rw [List.getLast?_cons_cons]
          rw [List.getLast?_cons_cons] at ih
          exact ih
    · have hrr : pySplitChar sep cs = [cs] := pySplitChar_of_not_mem hm
      simp only [pySplitChar, hrr, List.headD_cons, List.tail_cons]
      have hmr : sep ∉ cs.reverse := fun h => hm (List.mem_reverse.mp h)
      rw [hrc, takeWhile_append_of_not_mem [c] hmr]
      by_cases hc : c = sep
      · have hn : ¬ ((fun x => decide (x ≠ sep)) c = true) := by
          simp only [decide_eq_true_eq, not_not]
          exact hc
        rw [if_pos hc,
          @List.takeWhile_cons_of_neg Char (fun x => decide (x ≠ sep)) c [] hn,
          List.getLast?_cons_cons]
        simp
      · have hp : (fun x => decide (x ≠ sep)) c = true := by
          simp only [decide_eq_true_eq]
          exact hc
        rw [if_neg hc,
          @List.takeWhile_cons_of_pos Char (fun x => decide (x ≠ sep)) c [] hp]
        simp [List.reverse_append]

/-- The code's derived icon identifier agrees with the specified one:
the part of the base filename (after the last path separator) that comes
before the first dot. -/
theorem iconNameOf_eq_spec (p : FName) : iconNameOf p = specIconName p := by
  have h1 : (pySplitChar '/' p).getLastD [] =
      (p.reverse.takeWhile (fun c => c ≠ '/')).reverse := by
    rw [List.getLastD_eq_getLast?, getLast?_pySplitChar]
    rfl
  simp only [iconNameOf, specIconName, h1]
  rw [headD_pySplitChar]

/-! ### Lemmas about splitExt and the canonical AppIcon names -/

/-- The characters of the canonical base name. -/
def appIconChars : FName := ['A', 'p', 'p', 'I', 'c', 'o', 'n']

theorem extOf_shape (f : FName) :
    extOf f = [] ∨ ∃ t, extOf f = '.' :: t ∧ '.' ∉ t := by
  simp only [extOf, splitExt]
  split_ifs with h1 h2
  · exact Or.inl rfl
  · refine Or.inr ⟨(f.reverse.takeWhile (fun c => c ≠ '.')).reverse, rfl, ?_⟩
    intro hm
    have hm2 : '.' ∈ f.reverse.takeWhile (fun c => c ≠ '.') := List.mem_reverse.mp hm
    have := List.mem_takeWhile_imp hm2
    simp at this
  · exact Or.inl rfl

theorem splitExt_appIcon (e : FName)
    (h : e = [] ∨ ∃ t, e = '.' :: t ∧ '.' ∉ t) :
    splitExt (appIcon e) = (appIconChars, e) := by
  rcases h with h | ⟨t, ht, hnt⟩
  · subst h
    decide
  · subst ht
    have hntr : '.' ∉ t.reverse := fun hm => hnt (List.mem_reverse.mp hm)
    have h1 : (appIcon ('.' :: t)).reverse =
        t.reverse ++ ('.' :: appIconChars.reverse) := by
      simp [appIcon, appIconChars, List.reverse_append]
    have hno : ¬ ((fun x => decide (x ≠ '.')) '.' = true) := by simp
    have h2 : (appIcon ('.' :: t)).reverse.takeWhile (fun c => c ≠ '.') =
        t.reverse := by
      rw [h1, takeWhile_append_of_not_mem _ hntr,
        @List.takeWhile_cons_of_neg Char (fun x => decide (x ≠ '.')) '.'
          appIconChars.reverse hno]
      simp
    have hlen : (appIcon ('.' :: t)).length = 8 + t.length := by
      simp [appIcon]
      omega
    have hcond : ¬ ((appIcon ('.' :: t)).reverse.takeWhile
        (fun c => c ≠ '.')).length = (appIcon ('.' :: t)).length := by
      rw [h2, hlen]
      simp
    have harg : (appIcon ('.' :: t)).length -
        ((appIcon ('.' :: t)).reverse.takeWhile (fun c => c ≠ '.')).length - 1 = 7 := by
      rw [h2, hlen]
      simp
    have htake : (appIcon ('.' :: t)).take 7 = appIconChars := by
      have h7 : (7 : Nat) = appIconChars.length := rfl
      rw [appIcon, h7]
      exact List.take_left appIconChars ('.' :: t)
    simp only [splitExt, hcond, ite_false, if_neg hcond, harg, htake]
    rw [if_pos]
    · rw [h2]
      simp
    · decide

theorem extOf_appIcon (f : FName) : extOf (appIcon (extOf f)) = extOf f := by
  have h := splitExt_appIcon (extOf f) (extOf_shape f)
  show (splitExt (appIcon (extOf f))).2 = extOf f
  rw [h]

theorem appIcon_inj {e1 e2 : FName} (h : appIcon e1 = appIcon e2) : e1 = e2 :=
  List.append_cancel_left h

/-! ### Lemmas about the renaming loop of compileIcon -/

theorem renameLoop_append (d : Dir) (l1 l2 : List FName) :
    renameLoop d (l1 ++ l2) = renameLoop (renameLoop d l1) l2 := by
  induction l1 generalizing d with
  | nil => rfl
  | cons f fs ih => simp [renameLoop, ih]

theorem assocGet_renameStep_untouched (d : Dir) (g f0 : FName)
    (h1 : f0 ≠ g) (h2 : f0 ≠ appIcon (extOf g)) :
    assocGet (renameStep d g) f0 = assocGet d f0 := by
  unfold renameStep
  split_ifs with hext
  · unfold renameFile
    cases hv : assocGet d g with
    | none => rfl
    | some v =>
      rw [assocGet_dirInsert, if_neg (fun he => h2 he.symm), assocGet_erase,
        if_neg (fun he => h1 he.symm)]
  · rfl

theorem assocGet_renameStep_none (d : Dir) (g n : FName)
    (hd : assocGet d n = none) (h : n ≠ appIcon (extOf g)) :
    assocGet (renameStep d g) n = none := by
  unfold renameStep
  split_ifs with hext
  · unfold renameFile
    cases hv : assocGet d g with
    | none => exact hd
    | some v =>
      rw [assocGet_dirInsert, if_neg (fun he => h he.symm), assocGet_erase]
      split_ifs with hg
      · rfl
      · exact hd
  · exact hd

theorem renameStep_presence (d : Dir) (g f0 : FName)
    (h1 : f0 ≠ g) (hs : (assocGet d f0).isSome) :
    (assocGet (renameStep d g) f0).isSome := by
  unfold renameStep
  split_ifs with hext
  · unfold renameFile
    cases hv : assocGet d g with
    | none => exact hs
    | some v =>
      rw [assocGet_dirInsert]
      split_ifs with he
      · simp
      · rw [assocGet_erase, if_neg (fun he2 => h1 he2.symm)]
        exact hs
  · exact hs

theorem appIcon_stable_step (d : Dir) (g : FName) (e : FName)
    (he : extOf (appIcon e) = e) (hs : (assocGet d (appIcon e)).isSome) :
    (assocGet (renameStep d g) (appIcon e)).isSome := by
  unfold renameStep
  split_ifs with hext
  · unfold renameFile
    cases hv : assocGet d g with
    | none => exact hs
    | some v =>
      rw [assocGet_dirInsert]
      split_ifs with ht
      · simp
      · rw [assocGet_erase]
        split_ifs with hg
        · exfalso
          apply ht
          rw [hg, he]
        · exact hs
  · exact hs

theorem renameStep_self_target (d : Dir) (f : FName)
    (hext : extOf f ≠ carExt) (hs : (assocGet d f).isSome) :
    assocGet (renameStep d f) (appIcon (extOf f)) = assocGet d f := by
  unfold renameStep
  rw [if_pos hext]
  unfold renameFile
  cases hv : assocGet d f with
  | none => rw [hv] at hs; simp at hs
  | some v =>
    rw [assocGet_dirInsert, if_pos rfl]

theorem renameStep_erases (d : Dir) (n : FName)
    (hext : extOf n ≠ carExt) (h : n ≠ appIcon (extOf n)) :
    assocGet (renameStep d n) n = none := by
  unfold renameStep
  rw [if_pos hext]
  unfold renameFile
  cases hv : assocGet d n with
  | none => exact hv
  | some v =>
    rw [assocGet_dirInsert, if_neg (fun he => h he.symm), assocGet_erase,
      if_pos rfl]

theorem renameLoop_preserve (l : List FName) (d : Dir) (f0 : FName)
    (h : ∀ g ∈ l, f0 ≠ g ∧ f0 ≠ appIcon (extOf g)) :
    assocGet (renameLoop d l) f0 = assocGet d f0 := by
  induction l generalizing d with
  | nil => rfl
  | cons g gs ih =>
    simp only [renameLoop]
    rw [ih _ (fun x hx => h x (List.mem_cons_of_mem _ hx)),
      assocGet_renameStep_untouched d g f0 (h g (List.mem_cons_self g gs)).1
        (h g (List.mem_cons_self g gs)).2]

theorem renameLoop_absent (l : List FName) (d : Dir) (n : FName)
    (hd : assocGet d n = none) (h : ∀ g ∈ l, n ≠ appIcon (extOf g)) :
    assocGet (renameLoop d l) n = none := by
  induction l generalizing d with
  | nil => exact hd
  | cons g gs ih =>
    simp only [renameLoop]
    exact ih _ (assocGet_renameStep_none d g n hd (h g (List.mem_cons_self g gs)))
      (fun x hx => h x (List.mem_cons_of_mem _ hx))

theorem renameLoop_presence (l : List FName) (d : Dir) (f0 : FName)
    (hnm : f0 ∉ l) (hs : (assocGet d f0).isSome) :
    (assocGet (renameLoop d l) f0).isSome := by
  induction l generalizing d with
  | nil => exact hs
  | cons g gs ih =>
    simp only [renameLoop]
    have h1 : f0 ≠ g := fun he => hnm (he ▸ List.mem_cons_self g gs)
    exact ih _ (fun hm => hnm (List.mem_cons_of_mem _ hm))
      (renameStep_presence d g f0 h1 hs)

theorem appIcon_stable_loop (l : List FName) (d : Dir) (e : FName)
    (he : extOf (appIcon e) = e) (hs : (assocGet d (appIcon e)).isSome) :
    (assocGet (renameLoop d l) (appIcon e)).isSome := by
  induction l generalizing d with
  | nil => exact hs
  | cons g gs ih =>
    simp only [renameLoop]
    exact ih _ (appIcon_stable_step d g e he hs)

theorem renameLoop_lost (l : List FName) (d : Dir) (n : FName)
    (hm : n ∈ l) (hext : extOf n ≠ carExt)
    (h : ∀ g ∈ l, n ≠ appIcon (extOf g)) :
    assocGet (renameLoop d l) n = none := by
  obtain ⟨s, t, hst⟩ := List.append_of_mem hm
  subst hst
  rw [renameLoop_append]
  simp only [renameLoop]
  apply renameLoop_absent
  · exact renameStep_erases _ n hext
      (h n (List.mem_append.mpr (Or.inr (List.mem_cons_self n t))))
  · exact fun x hx => h x (List.mem_append.mpr (Or.inr (List.mem_cons_of_mem _ hx)))

theorem renameLoop_car (l : List FName) (d : Dir) (f : FName)
    (hext : extOf f = carExt) :
    assocGet (renameLoop d l) f = assocGet d f := by
  induction l generalizing d with
  | nil => rfl
  | cons g gs ih =>
    simp only [renameLoop]
    rw [ih]
    by_cases hg : extOf g = carExt
    · unfold renameStep
      rw [if_neg (fun hne => hne hg)]
    · apply assocGet_renameStep_untouched
      · intro he
        exact hg (he ▸ hext)
      · intro he
        apply hg
        have h2 := extOf_appIcon g
        rw [← he, hext] at h2
        exact h2.symm


theorem renameLoop_target_content (d : Dir) (pre suf : List FName) (f : FName)
    (hnd : (pre ++ f :: suf).Nodup)
    (hsome : (assocGet d f).isSome)
    (hcar : extOf f ≠ carExt)
    (hnapp : ∀ g ∈ pre ++ f :: suf, g ≠ appIcon (extOf f))
    (hsuf : ∀ g ∈ suf, extOf g ≠ extOf f) :
    assocGet (renameLoop d (pre ++ f :: suf)) (appIcon (extOf f)) =
      assocGet d f := by
  have hfmem : f ∈ pre ++ f :: suf :=
    List.mem_append.mpr (Or.inr (List.mem_cons_self f suf))
  have hpre : ∀ g ∈ pre, f ≠ g ∧ f ≠ appIcon (extOf g) := by
    intro g hg
    constructor
    · have h1 := List.nodup_middle.mp hnd
      rw [List.nodup_cons] at h1
      exact fun he => h1.1 (List.mem_append.mpr (Or.inl (he ▸ hg)))
    · intro he
      have h2 : extOf f = extOf g := by
        rw [he, extOf_appIcon]
      exact hnapp f hfmem (by rw [h2]; exact he)
  rw [renameLoop_append]
  simp only [renameLoop]
  have hd1 : assocGet (renameLoop d pre) f = assocGet d f :=
    renameLoop_preserve _ d f hpre
  have hsome2 : (assocGet (renameLoop d pre) f).isSome := by
    rw [hd1]
    exact hsome
  have hstep := renameStep_self_target (renameLoop d pre) f hcar hsome2
  have htail : ∀ g ∈ suf, appIcon (extOf f) ≠ g ∧
      appIcon (extOf f) ≠ appIcon (extOf g) := by
    intro g hg
    have hgmem : g ∈ pre ++ f :: suf :=
      List.mem_append.mpr (Or.inr (List.mem_cons_of_mem _ hg))
    constructor
    · exact fun he => hnapp g hgmem he.symm
    · intro he
      exact hsuf g hg (appIcon_inj he).symm
  rw [renameLoop_preserve suf _ _ htail, hstep, hd1]

/-! ### Lemmas about moveIconToApp -/

theorem nodup_map_fst_filter (p : FName × Nat → Bool) (l : Dir)
    (h : (l.map Prod.fst).Nodup) : ((l.filter p).map Prod.fst).Nodup :=
  List.Nodup.sublist (List.Sublist.map Prod.fst (List.filter_sublist l)) h

theorem moveIcon_oldFiles_get (res : ResDir) (out : Dir) (n : FName)
    (hne : (res.entries.map Prod.fst).Nodup) :
    assocGet ((moveIconToApp res out).oldFiles.getD []) n =
      optOr
        (assocGet (res.entries.filter (fun e => ! containsSub oldFilesName e.1)) n)
        (assocGet (res.oldFiles.getD []) n) := by
  show assocGet
      ((res.entries.filter (fun e => ! containsSub oldFilesName e.1)).foldl
        (fun acc e => dirInsert acc e.1 e.2) (res.oldFiles.getD [])) n = _
  exact foldl_dirInsert_get _ _ _
    (nodup_map_fst_filter (fun e => ! containsSub oldFilesName e.1) _ hne)

theorem moveIcon_entries_get (res : ResDir) (out : Dir) (n : FName)
    (hno : (out.map Prod.fst).Nodup) :
    assocGet (moveIconToApp res out).entries n =
      optOr (assocGet out n)
        (assocGet (res.entries.filter (fun e => containsSub oldFilesName e.1)) n) := by
  show assocGet
      (out.foldl (fun acc e => dirInsert acc e.1 e.2)
        (res.entries.filter (fun e => containsSub oldFilesName e.1))) n = _
  exact foldl_dirInsert_get _ _ _ hno

/-! ### Claim theorems -/

/-- Claim C1, counterexample to the claim as stated: in a run where the icon
path fails validation in `compileIcon` (and the plist parses), the later
stage `updateInfoPlist` IS executed by `__init__`: `compileIcon` returns
early without raising, so the orchestrator continues into the
metadata-edit stage. -/
theorem C1_counterexample :
    (initPipeline false true).enteredUpdatePlist = true := by decide

/-- Claim C1, amended: when `compileIcon` path validation fails,
`updateInfoPlist` is nevertheless invoked and reads the metadata file, but
the run then aborts inside it (the icon identifier attribute was never set)
before any write, so the metadata file is not written and `moveIconToApp`
and `resignAppForLocalUse` are not executed. -/
theorem C1_amended (plistParsable : Bool) :
    (initPipeline false plistParsable).enteredUpdatePlist = true ∧
    (initPipeline false plistParsable).wrotePlist = false ∧
    (initPipeline false plistParsable).ranMoveIcon = false ∧
    (initPipeline false plistParsable).ranResign = false := by
  cases plistParsable <;> decide

/-- Claim C3: updateInfoPlist changes at most the two icon keys; every other
key keeps its value. -/
theorem C3_other_keys_preserved (pl : Plist) (n fb k : FName)
    (h1 : k ≠ cfBundleIconName) (h2 : k ≠ cfBundleIconFile) :
    assocGet (updateInfoPlist n fb pl) k = assocGet pl k := by
  unfold updateInfoPlist
  split_ifs with hf
  · rw [assocGet_setKey_other _ _ _ _ (fun he => h2 he.symm),
      assocGet_setKey_other _ _ _ _ (fun he => h1 he.symm)]
  · rw [assocGet_setKey_other _ _ _ _ (fun he => h1 he.symm)]

/-- Witness for C3 at a concrete plist and key. -/
theorem C3_witness :
    ((['X'] : FName) ≠ cfBundleIconName ∧ (['X'] : FName) ≠ cfBundleIconFile) ∧
    assocGet (updateInfoPlist ['R'] [] [(['X'], PVal.other 0)]) ['X'] =
      assocGet [(['X'], PVal.other 0)] ['X'] :=
  ⟨⟨by decide, by decide⟩,
    C3_other_keys_preserved [(['X'], PVal.other 0)] ['R'] [] ['X']
      (by decide) (by decide)⟩

/-- Claim C4: the derived icon identifier is the substring of the base
filename before the first dot, the metadata edit stores exactly that
identifier under the icon-name key, and `icons/Rocket.icon` derives the
identifier `Rocket`. -/
theorem C4_icon_identifier (p fb : FName) (pl : Plist) :
    iconNameOf p = specIconName p ∧
    assocGet (updateInfoPlist (iconNameOf p) fb pl) cfBundleIconName =
      some (PVal.str (iconNameOf p)) ∧
    iconNameOf ("icons/Rocket.icon".data) = "Rocket".data := by
  refine ⟨iconNameOf_eq_spec p, ?_, by decide⟩
  unfold updateInfoPlist
  split_ifs with hf
  · rw [assocGet_setKey_other _ _ _ _
      (by decide : cfBundleIconFile ≠ cfBundleIconName), assocGet_setKey_self]
  · rw [assocGet_setKey_self]

/-- Claim C5: when the code-signing tool is not discoverable,
`resignAppForLocalUse` reports failure and performs no mutation: the
signature directory is not deleted, no extended-attribute clearing runs,
and no signing invocation happens. -/
theorem C5_no_codesign_no_mutation (env : SignEnv)
    (h : env.codesignFound = false) :
    resignAppForLocalUse env = (false, noSignEffects) := by
  by_cases hb : env.bundlePathValid = false <;>
    simp [resignAppForLocalUse, hb, h]

/-- Witness for C5 at a concrete environment. -/
theorem C5_witness :
    ({ bundlePathValid := true, codesignFound := false, xattrFound := true,
       codeSigExists := true, signExitOk := true } : SignEnv).codesignFound
        = false ∧
    resignAppForLocalUse
      { bundlePathValid := true, codesignFound := false, xattrFound := true,
        codeSigExists := true, signExitOk := true } = (false, noSignEffects) :=
  ⟨by decide, C5_no_codesign_no_mutation _ (by decide)⟩

/-- Claim C6: when the metadata file cannot be parsed, the metadata-edit
stage fails without writing it, and the relocation and resigning stages do
not run (the parse error propagates out of `__init__`). -/
theorem C6_parse_failure_halts (iconPathValid : Bool) :
    initPipeline iconPathValid false =
      { ranActool := iconPathValid, enteredUpdatePlist := true,
        readPlist := true, wrotePlist := false, ranMoveIcon := false,
        ranResign := false } := by
  cases iconPathValid <;> decide

/-- Claim C9, counterexample to the claim as stated: a successful path check
emits NO status message (the success branch of `validatePath` returns
without logging), contradicting that a message is emitted for every check. -/
theorem C9_counterexample :
    validatePath ['p'] ResolveOutcome.ok = (true, []) := by decide

/-- Claim C9, amended: `validatePath` never raises on the caught resolution
errors; it returns success with no message on a successful resolution, and
on a caught filesystem error returns a failure indicator together with
exactly one human-readable failure message. -/
theorem C9_amended (fp m : FName) :
    validatePath fp ResolveOutcome.ok = (true, []) ∧
    (validatePath fp (ResolveOutcome.err m)).1 = false ∧
    (validatePath fp (ResolveOutcome.err m)).2.length = 1 :=
  ⟨rfl, rfl, rfl⟩

/-- Claim C2, counterexample to the claim as stated: the backup loop skips
any entry whose NAME CONTAINS the substring `oldFiles`, not only the backup
subdirectory itself, so an entry named `xoldFilesx` stays in the resource
directory and never reaches the backup. -/
theorem C2_counterexample :
    assocGet (moveIconToApp ⟨[("xoldFilesx".data, 0)], none⟩
        [("AppIcon.car".data, 5)]).entries ("xoldFilesx".data) = some 0 ∧
    assocGet ((moveIconToApp ⟨[("xoldFilesx".data, 0)], none⟩
        [("AppIcon.car".data, 5)]).oldFiles.getD []) ("xoldFilesx".data) =
      none := by decide

/-- Claim C2, amended: after `moveIconToApp`, every prior entry whose name
does not contain the substring `oldFiles` is inside the backup with its
content; the resource directory contains only the compiled artifacts and
prior entries whose names contain the substring `oldFiles`; and every
compiled artifact is present in the resource directory. -/
theorem C2_amended (ents : Dir) (ofd : Option Dir) (out : Dir)
    (hne : (ents.map Prod.fst).Nodup) (hno : (out.map Prod.fst).Nodup) :
    (∀ e ∈ ents, containsSub oldFilesName e.1 = false →
      assocGet ((moveIconToApp ⟨ents, ofd⟩ out).oldFiles.getD []) e.1 =
        some e.2) ∧
    (∀ n v, assocGet (moveIconToApp ⟨ents, ofd⟩ out).entries n = some v →
      (n, v) ∈ out ∨ (containsSub oldFilesName n = true ∧ (n, v) ∈ ents)) ∧
    (∀ e ∈ out, assocGet (moveIconToApp ⟨ents, ofd⟩ out).entries e.1 =
      some e.2) := by
  refine ⟨?_, ?_, ?_⟩
  · intro e he hcs
    rw [moveIcon_oldFiles_get ⟨ents, ofd⟩ out e.1 hne]
    have hmem : e ∈ ents.filter (fun x => ! containsSub oldFilesName x.1) :=
      List.mem_filter.mpr ⟨he, by simp [hcs]⟩
    have hget := mem_assocGet_of_nodup
      (nodup_map_fst_filter (fun x => ! containsSub oldFilesName x.1) ents hne)
      hmem
    show optOr (assocGet (ents.filter (fun x => ! containsSub oldFilesName x.1))
      e.1) (assocGet (ofd.getD []) e.1) = some e.2
    rw [hget]
    rfl
  · intro n v hv
    rw [moveIcon_entries_get ⟨ents, ofd⟩ out n hno] at hv
    cases hq : assocGet out n with
    | some w =>
      rw [hq] at hv
      have hw : w = v := by simpa [optOr] using hv
      exact Or.inl (hw ▸ assocGet_some_mem hq)
    | none =>
      rw [hq] at hv
      have hv2 : assocGet (ents.filter
          (fun e => containsSub oldFilesName e.1)) n = some v := hv
      have hmf := List.mem_filter.mp (assocGet_some_mem hv2)
      exact Or.inr ⟨hmf.2, hmf.1⟩
  · intro e he
    rw [moveIcon_entries_get ⟨ents, ofd⟩ out e.1 hno,
      mem_assocGet_of_nodup hno he]
    rfl

/-- Witness for C2 (amended) at a concrete resource directory. -/
theorem C2_witness :
    ((([("plain.icns".data, 0)] : Dir).map Prod.fst).Nodup ∧
     (([("AppIcon.car".data, 5)] : Dir).map Prod.fst).Nodup) ∧
    ((∀ e ∈ ([("plain.icns".data, 0)] : Dir),
        containsSub oldFilesName e.1 = false →
        assocGet ((moveIconToApp ⟨[("plain.icns".data, 0)], none⟩
          [("AppIcon.car".data, 5)]).oldFiles.getD []) e.1 = some e.2) ∧
     (∀ n v, assocGet (moveIconToApp ⟨[("plain.icns".data, 0)], none⟩
          [("AppIcon.car".data, 5)]).entries n = some v →
        (n, v) ∈ ([("AppIcon.car".data, 5)] : Dir) ∨
          (containsSub oldFilesName n = true ∧
            (n, v) ∈ ([("plain.icns".data, 0)] : Dir))) ∧
     (∀ e ∈ ([("AppIcon.car".data, 5)] : Dir),
        assocGet (moveIconToApp ⟨[("plain.icns".data, 0)], none⟩
          [("AppIcon.car".data, 5)]).entries e.1 = some e.2)) :=
  ⟨⟨by decide, by decide⟩, C2_amended _ _ _ (by decide) (by decide)⟩

/-- Claim C8: the backup subdirectory exists after the relocation stage no
matter whether it existed before (creation is lazy and tolerates prior
existence), and the relocation never moves the backup into itself: the
backup never gains an entry named `oldFiles`. -/
theorem C8_backup_idempotent (res : ResDir) (out : Dir) :
    ((moveIconToApp res out).oldFiles).isSome = true ∧
    assocGet ((moveIconToApp res out).oldFiles.getD []) oldFilesName =
      assocGet (res.oldFiles.getD []) oldFilesName := by
  constructor
  · rfl
  · show assocGet
        ((res.entries.filter (fun e => ! containsSub oldFilesName e.1)).foldl
          (fun acc e => dirInsert acc e.1 e.2) (res.oldFiles.getD []))
        oldFilesName = _
    apply foldl_dirInsert_get_of_ne
    intro e he hEq
    have hf := (List.mem_filter.mp he).2
    rw [hEq] at hf
    have hself : containsSub oldFilesName oldFilesName = true := by decide
    rw [hself] at hf
    simp at hf

/-- Claim C7: after the renaming loop of `compileIcon`, every listed file
whose extension is `.car` still has its original name and content; every
listed file with a different extension is renamed to `AppIcon<ext>`: its
original name is gone from the directory, the canonical name
`AppIcon<ext>` exists, and when no later listing entry shares its
extension the canonical entry holds exactly that file's content.  The
hypothesis `hnapp` records that no produced file is already canonically
named (otherwise a file named `AppIcon<ext>` is renamed onto itself and
its original name survives). -/
theorem C7_rename_canonical (fs : List FName) (d : Dir)
    (hnd : fs.Nodup) (hpres : ∀ f ∈ fs, (assocGet d f).isSome)
    (hnapp : ∀ f ∈ fs, ∀ g ∈ fs, f ≠ appIcon (extOf g)) :
    (∀ f ∈ fs, extOf f = carExt →
      assocGet (renameLoop d fs) f = assocGet d f) ∧
    (∀ f ∈ fs, extOf f ≠ carExt →
      assocGet (renameLoop d fs) f = none) ∧
    (∀ f ∈ fs, extOf f ≠ carExt →
      (assocGet (renameLoop d fs) (appIcon (extOf f))).isSome) ∧
    (∀ l1 f l2, fs = l1 ++ f :: l2 → extOf f ≠ carExt →
      (∀ g ∈ l2, extOf g ≠ extOf f) →
      assocGet (renameLoop d fs) (appIcon (extOf f)) = assocGet d f) := by
  refine ⟨?_, ?_, ?_, ?_⟩
  · intro f _ hext
    exact renameLoop_car fs d f hext
  · intro f hf hext
    exact renameLoop_lost fs d f hf hext (fun g hg => hnapp f hf g hg)
  · intro f hf hext
    obtain ⟨s, t, hst⟩ := List.append_of_mem hf
    subst hst
    have hnm : f ∉ s := by
      have h1 := List.nodup_middle.mp hnd
      rw [List.nodup_cons] at h1
      exact fun hm => h1.1 (List.mem_append.mpr (Or.inl hm))
    rw [renameLoop_append]
    simp only [renameLoop]
    apply appIcon_stable_loop
    · exact extOf_appIcon f
    · have hp1 : (assocGet (renameLoop d s) f).isSome :=
        renameLoop_presence s d f hnm (hpres f hf)
      rw [renameStep_self_target (renameLoop d s) f hext hp1]
      exact hp1
  · intro l1 f l2 hfs hext hl2
    subst hfs
    have hfmem : f ∈ l1 ++ f :: l2 :=
      List.mem_append.mpr (Or.inr (List.mem_cons_self f l2))
    exact renameLoop_target_content d l1 l2 f hnd (hpres f hfmem) hext
      (fun g hg => hnapp g hg f hfmem) hl2

/-- Witness for C7 at a concrete output directory. -/
theorem C7_witness :
    ((["b.car".data, "x.png".data] : List FName).Nodup ∧
     (∀ f ∈ (["b.car".data, "x.png".data] : List FName),
       (assocGet ([("b.car".data, 1), ("x.png".data, 0)] : Dir) f).isSome) ∧
     (∀ f ∈ (["b.car".data, "x.png".data] : List FName),
       ∀ g ∈ (["b.car".data, "x.png".data] : List FName),
         f ≠ appIcon (extOf g))) ∧
    ((∀ f ∈ (["b.car".data, "x.png".data] : List FName), extOf f = carExt →
        assocGet (renameLoop [("b.car".data, 1), ("x.png".data, 0)]
          ["b.car".data, "x.png".data]) f =
          assocGet [("b.car".data, 1), ("x.png".data, 0)] f) ∧
     (∀ f ∈ (["b.car".data, "x.png".data] : List FName), extOf f ≠ carExt →
        assocGet (renameLoop [("b.car".data, 1), ("x.png".data, 0)]
          ["b.car".data, "x.png".data]) f = none) ∧
     (∀ f ∈ (["b.car".data, "x.png".data] : List FName), extOf f ≠ carExt →
        (assocGet (renameLoop [("b.car".data, 1), ("x.png".data, 0)]
          ["b.car".data, "x.png".data]) (appIcon (extOf f))).isSome) ∧
     (∀ l1 f l2, (["b.car".data, "x.png".data] : List FName) = l1 ++ f :: l2 →
        extOf f ≠ carExt → (∀ g ∈ l2, extOf g ≠ extOf f) →
        assocGet (renameLoop [("b.car".data, 1), ("x.png".data, 0)]
          ["b.car".data, "x.png".data]) (appIcon (extOf f)) =
          assocGet [("b.car".data, 1), ("x.png".data, 0)] f)) :=
  ⟨⟨by decide, by decide, by decide⟩,
    C7_rename_canonical _ _ (by decide) (by decide) (by decide)⟩

/-- Claim C10 (implicit): the renaming is not injective; when two listed
files share the same non-`.car` extension, both renames hit the same
`AppIcon<ext>` target, the later listing entry overwrites the earlier one,
the earlier file name is gone, and at most one file with that extension
survives the loop. -/
theorem C10_rename_collision (d : Dir) (l1 l2 l3 : List FName)
    (f1 f2 : FName) (fs : List FName)
    (hfs : fs = l1 ++ f1 :: (l2 ++ f2 :: l3))
    (hnd : fs.Nodup)
    (hpres : ∀ f ∈ fs, (assocGet d f).isSome)
    (hnames : ∀ e ∈ d, e.1 ∈ fs)
    (hee : extOf f1 = extOf f2)
    (hcar : extOf f2 ≠ carExt)
    (hnapp : ∀ f ∈ fs, f ≠ appIcon (extOf f2))
    (hlast : ∀ f ∈ l3, extOf f ≠ extOf f2) :
    assocGet (renameLoop d fs) (appIcon (extOf f2)) = assocGet d f2 ∧
    assocGet (renameLoop d fs) f1 = none ∧
    (∀ n, (assocGet (renameLoop d fs) n).isSome → extOf n = extOf f2 →
      n = appIcon (extOf f2)) := by
  have hf2mem : f2 ∈ fs := by
    rw [hfs]
    simp
  have hf1mem : f1 ∈ fs := by
    rw [hfs]
    simp
  have hassoc : fs = (l1 ++ f1 :: l2) ++ (f2 :: l3) := by
    rw [hfs]
    simp
  refine ⟨?_, ?_, ?_⟩
  · have hpre : ∀ g ∈ l1 ++ f1 :: l2, f2 ≠ g ∧ f2 ≠ appIcon (extOf g) := by
      intro g hg
      constructor
      · have hnd2 : ((l1 ++ f1 :: l2) ++ f2 :: l3).Nodup := by
          rw [← hassoc]
          exact hnd
        have h1 := List.nodup_middle.mp hnd2
        rw [List.nodup_cons] at h1
        exact fun he => h1.1 (List.mem_append.mpr (Or.inl (he ▸ hg)))
      · intro he
        have h2 : extOf f2 = extOf g := by
          rw [he, extOf_appIcon]
        exact hnapp f2 hf2mem (by rw [h2]; exact he)
    rw [hassoc, renameLoop_append]
    simp only [renameLoop]
    have hd1 : assocGet (renameLoop d (l1 ++ f1 :: l2)) f2 = assocGet d f2 :=
      renameLoop_preserve _ d f2 hpre
    have hsome2 : (assocGet (renameLoop d (l1 ++ f1 :: l2)) f2).isSome := by
      rw [hd1]
      exact hpres f2 hf2mem
    have hstep := renameStep_self_target (renameLoop d (l1 ++ f1 :: l2)) f2
      hcar hsome2
    have htail : ∀ g ∈ l3, appIcon (extOf f2) ≠ g ∧
        appIcon (extOf f2) ≠ appIcon (extOf g) := by
      intro g hg
      have hgfs : g ∈ fs := by
        rw [hfs]
        simp [hg]
      constructor
      · exact fun he => hnapp g hgfs he.symm
      · intro he
        exact hlast g hg (appIcon_inj he).symm
    rw [renameLoop_preserve l3 _ _ htail, hstep, hd1]
  · apply renameLoop_lost fs d f1 hf1mem
    · rw [hee]
      exact hcar
    · intro g hg he
      have h2 : extOf f1 = extOf g := by
        rw [he, extOf_appIcon]
      apply hnapp f1 hf1mem
      rw [he, ← h2, hee]
  · intro n hsome hext
    by_cases hc : ∀ g ∈ fs, n ≠ appIcon (extOf g)
    · by_cases hd0 : assocGet d n = none
      · rw [renameLoop_absent fs d n hd0 hc] at hsome
        simp at hsome
      · obtain ⟨v, hv⟩ : ∃ v, assocGet d n = some v := by
          cases hq : assocGet d n with
          | none => exact absurd hq hd0
          | some v => exact ⟨v, rfl⟩
        have hmem : n ∈ fs := hnames (n, v) (assocGet_some_mem hv)
        rw [renameLoop_lost fs d n hmem (by rw [hext]; exact hcar) hc] at hsome
        simp at hsome
    · push_neg at hc
      obtain ⟨g, hg, he⟩ := hc
      have h2 : extOf n = extOf g := by
        rw [he, extOf_appIcon]
      rw [he]
      have h3 : extOf g = extOf f2 := by
        rw [← h2, hext]
      rw [h3]

/-- Witness for C10 at two files sharing the `.png` extension. -/
theorem C10_witness :
    ((["a.png".data, "b.png".data] : List FName).Nodup ∧
     extOf ("a.png".data) = extOf ("b.png".data) ∧
     extOf ("b.png".data) ≠ carExt) ∧
    (assocGet (renameLoop ([("a.png".data, 0), ("b.png".data, 1)] : Dir)
        ["a.png".data, "b.png".data]) (appIcon (extOf ("b.png".data))) =
      assocGet ([("a.png".data, 0), ("b.png".data, 1)] : Dir) ("b.png".data) ∧
     assocGet (renameLoop ([("a.png".data, 0), ("b.png".data, 1)] : Dir)
        ["a.png".data, "b.png".data]) ("a.png".data) = none ∧
     (∀ n, (assocGet (renameLoop ([("a.png".data, 0), ("b.png".data, 1)] : Dir)
        ["a.png".data, "b.png".data]) n).isSome →
       extOf n = extOf ("b.png".data) → n = appIcon (extOf ("b.png".data)))) :=
  ⟨⟨by decide, by decide, by decide⟩,
   C10_rename_collision [("a.png".data, 0), ("b.png".data, 1)] [] [] []
     ("a.png".data) ("b.png".data) ["a.png".data, "b.png".data]
     (by decide) (by decide) (by decide) (by decide) (by decide) (by decide)
     (by decide) (by decide)⟩

end LogoLiquify
